import Mathlib

/-!
Verification of the retrieval-and-fusion pipeline of the UIC policy RAG
backend: structural hybrid chunking, reciprocal rank fusion, the isolated
reranker fallback, index loading, and diverse triple beam search.

Python text is modelled as `List Char`; Python floats are modelled as exact
rationals `ℚ`; fallible paths are modelled with `Option`/`Except`.
External collaborators (embedding model, cross-encoder, filesystem) are
parameters of the embedded functions.
-/

namespace MetaRag

/-! ## Python string primitives -/

/-- The whitespace characters removed by Python `str.strip()` (ASCII range). -/
def pyIsSpace (c : Char) : Bool :=
  c = ' ' || c = '\t' || c = '\n' || c = '\r' || c = '\x0b' || c = '\x0c'

/-- Python `str.strip()`: remove leading and trailing whitespace. -/
def pyStrip (s : List Char) : List Char :=
  ((s.dropWhile pyIsSpace).reverse.dropWhile pyIsSpace).reverse

/-- Python slicing `s[a:b]` for `0 ≤ a`, `0 ≤ b`. -/
def pySlice (s : List Char) (a b : Nat) : List Char :=
  (s.drop a).take (b - a)

/-- Does `sep` occur in `s` starting exactly at index `i` (entirely inside `s`)? -/
def matchAt (s sep : List Char) (i : Nat) : Bool :=
  decide (pySlice s i (i + sep.length) = sep)

/-- Python `s.rfind(sep, start, fin)`: the largest index `i` with
`start ≤ i`, `i + sep.length ≤ fin` and an occurrence of `sep` at `i`;
`none` models Python's `-1`. -/
def pyRfind (s sep : List Char) (start fin : Nat) : Option Nat :=
  ((List.range (fin + 1)).filter
    (fun i => decide (start ≤ i) && decide (i + sep.length ≤ fin) && matchAt s sep i)).getLast?

/-! ## Structural hybrid chunker (components/chunking.py) -/

/-- The separator priority list of `_find_natural_split`. -/
def pySeps : List (List Char) := [['\n', '\n'], ['\n'], ['.', ' '], [' ']]

/-- The separator scan of `_find_natural_split`: try each separator in
priority order, taking the last occurrence of the first one found. -/
def findSplitAux (text : List Char) (start hardEnd : Nat) : List (List Char) → Nat
  | [] => hardEnd
  | sep :: rest =>
    match pyRfind text sep start hardEnd with
    | some idx =>
      if idx + sep.length ≤ hardEnd then idx + sep.length
      else findSplitAux text start hardEnd rest
    | none => findSplitAux text start hardEnd rest

/-- The function `_find_natural_split(text, start, hard_end)`. -/
def findNaturalSplit (text : List Char) (start hardEnd : Nat) : Nat :=
  findSplitAux text start hardEnd pySeps

structure Paragraph where
  text : List Char
deriving Repr, DecidableEq

structure Block where
  heading : Option (List Char) := none
  page : Option Nat := none
  paragraphs : List Paragraph := []
deriving Repr, DecidableEq

structure Chunk where
  doc : List Char
  page : Option Nat
  heading : Option (List Char)
  block_index : Nat
  paragraph_index : Option Nat
  paragraph_indices : List Nat
  char_span : Nat × Nat
  text : List Char
deriving Repr, DecidableEq

/-- State of the block-text builder: accumulated pieces, current offset, and
recorded paragraph spans `(start, end, para_idx)`. -/
structure BuildState where
  pieces : List (List Char)
  offset : Nat
  paraSpans : List (Nat × Nat × Nat)
deriving Repr

/-- One iteration of the paragraph loop in `chunk_blocks`: strip the
paragraph, skip if empty, else append (with a two-character separator if
pieces already exist) and record its span. -/
def addPara (st : BuildState) (idx : Nat) (p : Paragraph) : BuildState :=
  let pt := pyStrip p.text
  if pt = [] then st
  else
    let st1 : BuildState :=
      if st.pieces.isEmpty then st
      else { st with pieces := st.pieces ++ [['\n', '\n']], offset := st.offset + 2 }
    let s := st1.offset
    let e := s + pt.length
    { pieces := st1.pieces ++ [pt], offset := e, paraSpans := st1.paraSpans ++ [(s, e, idx)] }

/-- Build the pieces and paragraph spans of one block (heading first, then
the nonempty stripped paragraphs separated by a double newline). -/
def buildBlock (b : Block) : BuildState :=
  let init : BuildState :=
    match b.heading with
    | none => ⟨[], 0, []⟩
    | some h =>
      let ht := pyStrip h
      if ht = [] then ⟨[], 0, []⟩ else ⟨[ht], ht.length, []⟩
  b.paragraphs.enum.foldl (fun st ip => addPara st ip.1 ip.2) init

/-- The concatenated (and stripped) text of a block, exactly as
`block_text = "".join(pieces).strip()`. -/
def blockTextOf (b : Block) : List Char :=
  pyStrip (buildBlock b).pieces.flatten

/-- The window end `hard_end = min(text_len, pos + max_size)`. -/
def hardEndAt (bt : List Char) (maxSize pos : Nat) : Nat :=
  min bt.length (pos + maxSize)

/-- The value `split_at` after the `if split_at <= pos: split_at = hard_end` fallback. -/
def splitAtPos (bt : List Char) (maxSize pos : Nat) : Nat :=
  let hardEnd := hardEndAt bt maxSize pos
  let split0 := findNaturalSplit bt pos hardEnd
  if split0 ≤ pos then hardEnd else split0

/-- The paragraph indices whose spans intersect `[pos, splitAt)`
(`p_start < chunk_end and p_end > chunk_start`). -/
def touchedAt (paraSpans : List (Nat × Nat × Nat)) (pos splitAt : Nat) : List Nat :=
  (paraSpans.filter
    (fun sp => decide (sp.1 < splitAt) && decide (pos < sp.2.1))).map (fun sp => sp.2.2)

/-- The chunk record emitted for window `[pos, splitAt)`. -/
def chunkAt (doc : List Char) (page : Option Nat) (heading : Option (List Char))
    (blockIdx : Nat) (bt : List Char) (paraSpans : List (Nat × Nat × Nat))
    (pos splitAt : Nat) : Chunk :=
  { doc := doc, page := page, heading := heading, block_index := blockIdx,
    paragraph_index := (touchedAt paraSpans pos splitAt).head?,
    paragraph_indices := touchedAt paraSpans pos splitAt,
    char_span := (pos, splitAt),
    text := pyStrip (pySlice bt pos splitAt) }

/-- The advance `next_pos = split_at - overlap; pos = next_pos if next_pos > pos else split_at`. -/
def nextPosAt (bt : List Char) (maxSize overlap pos : Nat) : Nat :=
  let splitAt := splitAtPos bt maxSize pos
  let nextPos := splitAt - overlap
  if pos < nextPos then nextPos else splitAt

/-- The sliding-window loop of `chunk_blocks` over one block's text.
`fuel` bounds the number of iterations; `none` means fuel ran out (the
Python loop would still be running). -/
def chunkLoop (doc : List Char) (page : Option Nat) (heading : Option (List Char))
    (blockIdx : Nat) (bt : List Char) (paraSpans : List (Nat × Nat × Nat))
    (maxSize overlap : Nat) (fuel pos : Nat) (acc : List Chunk) : Option (List Chunk) :=
  if bt.length ≤ pos then some acc
  else
    match fuel with
    | 0 => none
    | fuel' + 1 =>
      let splitAt := splitAtPos bt maxSize pos
      if pyStrip (pySlice bt pos splitAt) = [] then
        chunkLoop doc page heading blockIdx bt paraSpans maxSize overlap fuel'
          (hardEndAt bt maxSize pos) acc
      else
        chunkLoop doc page heading blockIdx bt paraSpans maxSize overlap fuel'
          (nextPosAt bt maxSize overlap pos)
          (acc ++ [chunkAt doc page heading blockIdx bt paraSpans pos splitAt])

/-- Chunk one block: build its text and paragraph spans, skip if the text is
empty, else run the sliding-window loop from position 0 with fuel equal to
the text length. -/
def chunkOneBlock (doc : List Char) (blockIdx : Nat) (b : Block)
    (maxSize overlap : Nat) : Option (List Chunk) :=
  let st := buildBlock b
  let bt := pyStrip st.pieces.flatten
  if bt = [] then some []
  else chunkLoop doc b.page b.heading blockIdx bt st.paraSpans maxSize overlap bt.length 0 []

/-- The block loop of `chunk_blocks` starting at block index `i`. -/
def chunkBlocksAux (doc : List Char) (maxSize overlap : Nat) :
    Nat → List Block → Option (List Chunk)
  | _, [] => some []
  | i, b :: rest =>
    (chunkOneBlock doc i b maxSize overlap).bind fun cs =>
      (chunkBlocksAux doc maxSize overlap (i + 1) rest).bind fun rest' =>
        some (cs ++ rest')

/-- The function `chunk_blocks(doc_name, blocks, max_size, overlap)`. -/
def chunk_blocks (doc : List Char) (blocks : List Block) (maxSize overlap : Nat) :
    Option (List Chunk) :=
  chunkBlocksAux doc maxSize overlap 0 blocks

/-! ## Basic facts about the chunker's window arithmetic -/

theorem findSplitAux_le (text : List Char) (start he : Nat) :
    ∀ seps, findSplitAux text start he seps ≤ he := by
  intro seps
  induction seps with
  | nil => simp [findSplitAux]
  | cons sep rest ih =>
    simp only [findSplitAux]
    cases h : pyRfind text sep start he with
    | none => exact ih
    | some idx =>
      dsimp only
      split
      · omega
      · exact ih

theorem findNaturalSplit_le (text : List Char) (start he : Nat) :
    findNaturalSplit text start he ≤ he :=
  findSplitAux_le text start he pySeps

theorem hardEndAt_le (bt : List Char) (maxSize pos : Nat) :
    hardEndAt bt maxSize pos ≤ bt.length := by
  unfold hardEndAt; omega

theorem lt_hardEndAt (bt : List Char) (maxSize pos : Nat)
    (h : pos < bt.length) (hms : 1 ≤ maxSize) : pos < hardEndAt bt maxSize pos := by
  unfold hardEndAt; omega

theorem le_hardEndAt (bt : List Char) (maxSize pos : Nat) (h : pos < bt.length) :
    pos ≤ hardEndAt bt maxSize pos := by
  unfold hardEndAt; omega

theorem splitAtPos_le (bt : List Char) (maxSize pos : Nat) :
    splitAtPos bt maxSize pos ≤ bt.length := by
  unfold splitAtPos
  have h1 := findNaturalSplit_le bt pos (hardEndAt bt maxSize pos)
  have h2 := hardEndAt_le bt maxSize pos
  dsimp only
  split <;> omega

theorem lt_splitAtPos (bt : List Char) (maxSize pos : Nat)
    (h : pos < bt.length) (hms : 1 ≤ maxSize) : pos < splitAtPos bt maxSize pos := by
  unfold splitAtPos
  have h1 := lt_hardEndAt bt maxSize pos h hms
  dsimp only
  split <;> omega

theorem pyStrip_nil : pyStrip [] = [] := rfl

theorem lt_of_strip_slice_ne (bt : List Char) (pos sa : Nat)
    (hne : pyStrip (pySlice bt pos sa) ≠ []) : pos < sa := by
  by_contra hle
  apply hne
  have : sa - pos = 0 := by omega
  simp [pySlice, this, pyStrip_nil]

theorem splitAt_sub_le_nextPosAt (bt : List Char) (maxSize overlap pos : Nat) :
    splitAtPos bt maxSize pos - overlap ≤ nextPosAt bt maxSize overlap pos := by
  unfold nextPosAt
  dsimp only
  split <;> omega

theorem lt_nextPosAt (bt : List Char) (maxSize overlap pos : Nat)
    (h : pos < splitAtPos bt maxSize pos) : pos < nextPosAt bt maxSize overlap pos := by
  unfold nextPosAt
  dsimp only
  split <;> omega

theorem nextPosAt_le_splitAt (bt : List Char) (maxSize overlap pos : Nat)
    (h : pos < splitAtPos bt maxSize pos) :
    nextPosAt bt maxSize overlap pos ≤ splitAtPos bt maxSize pos := by
  unfold nextPosAt
  dsimp only
  split <;> omega

/-! ## Termination of the chunking loop -/

theorem chunkLoop_isSome (doc : List Char) (page : Option Nat)
    (heading : Option (List Char)) (blockIdx : Nat) (bt : List Char)
    (paraSpans : List (Nat × Nat × Nat)) (maxSize overlap : Nat)
    (hms : 1 ≤ maxSize) :
    ∀ fuel pos acc, bt.length - pos ≤ fuel →
    (chunkLoop doc page heading blockIdx bt paraSpans maxSize overlap fuel pos acc).isSome := by
  intro fuel
  induction fuel with
  | zero =>
    intro pos acc hf
    rw [chunkLoop]
    split
    · simp
    · omega
  | succ fuel' ih =>
    intro pos acc hf
    rw [chunkLoop]
    split
    · simp
    · rename_i hpos
      dsimp only
      split
      · apply ih
        have := lt_hardEndAt bt maxSize pos (by omega) hms
        omega
      · apply ih
        have := lt_nextPosAt bt maxSize overlap pos
          (lt_splitAtPos bt maxSize pos (by omega) hms)
        omega

/-! ## Invariants of the chunking loop -/

/-- Per-chunk soundness with respect to the owning block text `bt`. -/
def ChunkWithin (bt : List Char) (blockIdx : Nat) (c : Chunk) : Prop :=
  c.char_span.1 < c.char_span.2 ∧ c.char_span.2 ≤ bt.length ∧
  c.text = pyStrip (pySlice bt c.char_span.1 c.char_span.2) ∧ c.text ≠ [] ∧
  c.block_index = blockIdx

/-- Lower overlap bound between consecutive chunks of one block (together
with positivity of the earlier chunk's end, needed for the strict bound). -/
def OverlapAdj (overlap : Nat) (c1 c2 : Chunk) : Prop :=
  c1.char_span.2 - overlap ≤ c2.char_span.1 ∧ 0 < c1.char_span.2

theorem chunkLoop_invariant (doc : List Char) (page : Option Nat)
    (heading : Option (List Char)) (blockIdx : Nat) (bt : List Char)
    (paraSpans : List (Nat × Nat × Nat)) (maxSize overlap : Nat) :
    ∀ fuel pos acc cs,
      chunkLoop doc page heading blockIdx bt paraSpans maxSize overlap fuel pos acc = some cs →
      (∀ c ∈ acc, ChunkWithin bt blockIdx c) →
      (∀ c ∈ acc.getLast?, c.char_span.2 - overlap ≤ pos) →
      acc.Chain' (OverlapAdj overlap) →
      (∀ c ∈ cs, ChunkWithin bt blockIdx c) ∧ cs.Chain' (OverlapAdj overlap) := by
  intro fuel
  induction fuel with
  | zero =>
    intro pos acc cs hsome hP hLast hChain
    rw [chunkLoop] at hsome
    split at hsome
    · cases hsome; exact ⟨hP, hChain⟩
    · cases hsome
  | succ fuel' ih =>
    intro pos acc cs hsome hP hLast hChain
    rw [chunkLoop] at hsome
    split at hsome
    · cases hsome; exact ⟨hP, hChain⟩
    · rename_i hpos
      dsimp only at hsome
      split at hsome
      · -- empty stripped window: skip, advance to hard end
        refine ih (hardEndAt bt maxSize pos) acc cs hsome hP ?_ hChain
        intro c hc
        have := le_hardEndAt bt maxSize pos (by omega)
        have := hLast c hc
        omega
      · -- emit a chunk and advance
        rename_i hne
        refine ih (nextPosAt bt maxSize overlap pos) _ cs hsome ?_ ?_ ?_
        · intro c hc
          rcases List.mem_append.mp hc with h | h
          · exact hP c h
          · rcases List.mem_singleton.mp h with rfl
            refine ⟨?_, ?_, rfl, hne, rfl⟩
            · exact lt_of_strip_slice_ne bt pos _ hne
            · exact splitAtPos_le bt maxSize pos
        · intro c hc
          rw [List.getLast?_concat] at hc
          cases hc
          have := splitAt_sub_le_nextPosAt bt maxSize overlap pos
          simpa [chunkAt] using this
        · rw [List.chain'_append]
          refine ⟨hChain, List.chain'_singleton _, ?_⟩
          intro x hx y hy
          simp only [List.head?_cons, Option.mem_def, Option.some.injEq] at hy
          subst hy
          have hxb := hLast x (by simpa [Option.mem_def] using hx)
          have hxmem : x ∈ acc :=
            List.mem_of_getLast?_eq_some (by simpa [Option.mem_def] using hx)
          have hxP := hP x hxmem
          exact ⟨hxb, Nat.lt_of_le_of_lt (Nat.zero_le _) hxP.1⟩

theorem chunkOneBlock_sound (doc : List Char) (blockIdx : Nat) (b : Block)
    (maxSize overlap : Nat) (cs : List Chunk)
    (h : chunkOneBlock doc blockIdx b maxSize overlap = some cs) :
    (∀ c ∈ cs, ChunkWithin (blockTextOf b) blockIdx c) ∧
    cs.Chain' (OverlapAdj overlap) := by
  unfold chunkOneBlock at h
  dsimp only at h
  split at h
  · cases h; exact ⟨by simp, by simp⟩
  · exact chunkLoop_invariant doc b.page b.heading blockIdx _ _ maxSize overlap
      _ 0 [] cs h (by simp) (by simp) (by simp)

theorem chunkOneBlock_isSome (doc : List Char) (blockIdx : Nat) (b : Block)
    (maxSize overlap : Nat) (hms : 1 ≤ maxSize) :
    (chunkOneBlock doc blockIdx b maxSize overlap).isSome := by
  unfold chunkOneBlock
  dsimp only
  split
  · simp
  · exact chunkLoop_isSome doc b.page b.heading blockIdx _ _ maxSize overlap hms
      _ 0 [] (by omega)

theorem chunkBlocksAux_sound (doc : List Char) (maxSize overlap : Nat) :
    ∀ (blocks : List Block) (i : Nat) (cs : List Chunk),
      chunkBlocksAux doc maxSize overlap i blocks = some cs →
      (∀ c ∈ cs, ∃ j b, blocks[j]? = some b ∧ c.block_index = i + j ∧
        ChunkWithin (blockTextOf b) (i + j) c) ∧
      cs.Chain' (fun c1 c2 => c1.block_index = c2.block_index →
        OverlapAdj overlap c1 c2) := by
  intro blocks
  induction blocks with
  | nil =>
    intro i cs h
    rw [chunkBlocksAux] at h
    cases h
    exact ⟨by simp, by simp⟩
  | cons b rest ih =>
    intro i cs h
    rw [chunkBlocksAux] at h
    simp only [Option.bind_eq_some, Option.pure_def, Option.some.injEq] at h
    obtain ⟨csb, hcsb, rest', hrest', rfl⟩ := h
    obtain ⟨Pb, Chb⟩ := chunkOneBlock_sound doc i b maxSize overlap csb hcsb
    obtain ⟨Pr, Chr⟩ := ih (i + 1) rest' hrest'
    constructor
    · intro c hc
      rcases List.mem_append.mp hc with hm | hm
      · refine ⟨0, b, by simp, ?_, ?_⟩
        · simpa using (Pb c hm).2.2.2.2
        · simpa using Pb c hm
      · obtain ⟨j, b', hj, hb, hP⟩ := Pr c hm
        exact ⟨j + 1, b', by simpa using hj, by omega,
          by rw [show i + (j + 1) = i + 1 + j by omega]; exact hP⟩
    · rw [List.chain'_append]
      refine ⟨List.Chain'.imp (fun a b hadj => fun _ => hadj) Chb, Chr, ?_⟩
      intro x hx y hy heq
      exfalso
      have hxmem : x ∈ csb :=
        List.mem_of_getLast?_eq_some (by simpa [Option.mem_def] using hx)
      have hymem : y ∈ rest' := List.mem_of_mem_head? (by simpa [Option.mem_def] using hy)
      have hxi : x.block_index = i := (Pb x hxmem).2.2.2.2
      obtain ⟨j, b', hj, hyb, _⟩ := Pr y hymem
      omega

theorem chunkBlocksAux_isSome (doc : List Char) (maxSize overlap : Nat)
    (hms : 1 ≤ maxSize) :
    ∀ (blocks : List Block) (i : Nat),
      (chunkBlocksAux doc maxSize overlap i blocks).isSome := by
  intro blocks
  induction blocks with
  | nil => intro i; rw [chunkBlocksAux]; simp
  | cons b rest ih =>
    intro i
    rw [chunkBlocksAux]
    obtain ⟨csb, hcsb⟩ := Option.isSome_iff_exists.mp
      (chunkOneBlock_isSome doc i b maxSize overlap hms)
    obtain ⟨rest', hrest'⟩ := Option.isSome_iff_exists.mp (ih (i + 1))
    simp [hcsb, hrest']

/-! ## Sample inputs used to instantiate the chunking theorems -/

/-- A block holding the single two-character paragraph `"ab"`. -/
def sampleBlockAB : Block :=
  { heading := none, page := none, paragraphs := [⟨['a', 'b']⟩] }

/-- First chunk produced from `sampleBlockAB` with `max_size = 1, overlap = 0`. -/
def sampleChunkA : Chunk :=
  ⟨['d'], none, none, 0, some 0, [0], (0, 1), ['a']⟩

/-- Second chunk produced from `sampleBlockAB` with `max_size = 1, overlap = 0`. -/
def sampleChunkB : Chunk :=
  ⟨['d'], none, none, 0, some 0, [0], (1, 2), ['b']⟩

theorem sample_chunks_eq :
    chunk_blocks ['d'] [sampleBlockAB] 1 0 = some [sampleChunkA, sampleChunkB] := by
  decide

/-! ## Claim theorems about the chunker -/

/-- C5: for every document name, block list, `max_size ≥ 1` and every
overlap (including `overlap ≥ max_size`), `chunk_blocks` terminates: the
loop, run with fuel equal to the block-text length, always completes,
because the cursor strictly advances on every iteration. -/
theorem chunk_blocks_terminates (doc : List Char) (blocks : List Block)
    (maxSize overlap : Nat) (hms : 1 ≤ maxSize) :
    (chunk_blocks doc blocks maxSize overlap).isSome :=
  chunkBlocksAux_isSome doc maxSize overlap hms blocks 0

theorem chunk_blocks_terminates_witness :
    1 ≤ 1 ∧ (chunk_blocks ['d'] [sampleBlockAB] 1 200).isSome :=
  ⟨Nat.le_refl 1, chunk_blocks_terminates ['d'] [sampleBlockAB] 1 200 (Nat.le_refl 1)⟩

/-- C7: every chunk emitted by `chunk_blocks` (for `max_size ≥ 1`) has a
char span `[start, end)` with `0 ≤ start < end ≤ len(block_text)` of its
owning block's concatenated text, and its text is never empty. -/
theorem chunk_spans_valid (doc : List Char) (blocks : List Block)
    (maxSize overlap : Nat) (cs : List Chunk) (hms : 1 ≤ maxSize)
    (h : chunk_blocks doc blocks maxSize overlap = some cs) :
    ∀ c ∈ cs, ∃ b, blocks[c.block_index]? = some b ∧
      c.char_span.1 < c.char_span.2 ∧
      c.char_span.2 ≤ (blockTextOf b).length ∧ c.text ≠ [] := by
  intro c hc
  obtain ⟨P, _⟩ := chunkBlocksAux_sound doc maxSize overlap blocks 0 cs h
  obtain ⟨j, b, hj, hbi, hP⟩ := P c hc
  exact ⟨b, by rw [hbi]; simpa using hj, hP.1, hP.2.1, hP.2.2.2.1⟩

theorem chunk_spans_valid_witness :
    ∃ b, ([sampleBlockAB] : List Block)[sampleChunkA.block_index]? = some b ∧
      sampleChunkA.char_span.1 < sampleChunkA.char_span.2 ∧
      sampleChunkA.char_span.2 ≤ (blockTextOf b).length ∧ sampleChunkA.text ≠ [] :=
  chunk_spans_valid ['d'] [sampleBlockAB] 1 0 [sampleChunkA, sampleChunkB]
    (Nat.le_refl 1) sample_chunks_eq sampleChunkA (by decide)

/-- C10: every chunk's stored text equals the slice of the owning block's
concatenated text at the recorded char span, stripped of surrounding
whitespace. -/
theorem chunk_text_provenance (doc : List Char) (blocks : List Block)
    (maxSize overlap : Nat) (cs : List Chunk)
    (h : chunk_blocks doc blocks maxSize overlap = some cs) :
    ∀ c ∈ cs, ∃ b, blocks[c.block_index]? = some b ∧
      c.text = pyStrip (pySlice (blockTextOf b) c.char_span.1 c.char_span.2) := by
  intro c hc
  obtain ⟨P, _⟩ := chunkBlocksAux_sound doc maxSize overlap blocks 0 cs h
  obtain ⟨j, b, hj, hbi, hP⟩ := P c hc
  exact ⟨b, by rw [hbi]; simpa using hj, hP.2.2.1⟩

theorem chunk_text_provenance_witness :
    ∃ b, ([sampleBlockAB] : List Block)[sampleChunkB.block_index]? = some b ∧
      sampleChunkB.text =
        pyStrip (pySlice (blockTextOf b) sampleChunkB.char_span.1 sampleChunkB.char_span.2) :=
  chunk_text_provenance ['d'] [sampleBlockAB] 1 0 [sampleChunkA, sampleChunkB]
    sample_chunks_eq sampleChunkB (by decide)

/-- C8 fails as stated: with `overlap = 0` on the block `"ab"` and
`max_size = 1`, the cursor advances via the overlap rule
(`next_pos = split_at - overlap = 1 > 0 = pos`), so the second chunk starts
exactly at `chunk[0].end - overlap`, yet
`chunk[1].start < chunk[0].end` is false (`1 < 1`). -/
theorem chunk_overlap_bound_counterexample :
    chunk_blocks ['d'] [sampleBlockAB] 1 0 = some [sampleChunkA, sampleChunkB] ∧
    sampleChunkA.block_index = sampleChunkB.block_index ∧
    sampleChunkB.char_span.1 = sampleChunkA.char_span.2 - 0 ∧
    ¬ (sampleChunkA.char_span.2 - 0 ≤ sampleChunkB.char_span.1 ∧
        sampleChunkB.char_span.1 < sampleChunkA.char_span.2) :=
  ⟨sample_chunks_eq, rfl, rfl, by decide⟩

/-- C8 (amended): for consecutive chunks of the same block,
`chunk[i].end - overlap ≤ chunk[i+1].start` always holds; and whenever the
cursor advanced via the overlap rule directly to the next emitted chunk
(`chunk[i+1].start = chunk[i].end - overlap`) with a positive overlap,
additionally `chunk[i+1].start < chunk[i].end`. -/
theorem chunk_overlap_bound_amended (doc : List Char) (blocks : List Block)
    (maxSize overlap : Nat) (cs : List Chunk)
    (h : chunk_blocks doc blocks maxSize overlap = some cs) :
    cs.Chain' (fun c1 c2 => c1.block_index = c2.block_index →
      (c1.char_span.2 - overlap ≤ c2.char_span.1 ∧
        (1 ≤ overlap → c2.char_span.1 = c1.char_span.2 - overlap →
          c2.char_span.1 < c1.char_span.2))) := by
  obtain ⟨_, Ch⟩ := chunkBlocksAux_sound doc maxSize overlap blocks 0 cs h
  refine List.Chain'.imp ?_ Ch
  intro a b hab heq
  obtain ⟨hle, hpos⟩ := hab heq
  exact ⟨hle, fun hov hstart => by omega⟩

theorem chunk_overlap_bound_amended_witness :
    ([sampleChunkA, sampleChunkB] : List Chunk).Chain' (fun c1 c2 =>
      c1.block_index = c2.block_index →
      (c1.char_span.2 - 0 ≤ c2.char_span.1 ∧
        (1 ≤ 0 → c2.char_span.1 = c1.char_span.2 - 0 →
          c2.char_span.1 < c1.char_span.2))) :=
  chunk_overlap_bound_amended ['d'] [sampleBlockAB] 1 0
    [sampleChunkA, sampleChunkB] sample_chunks_eq

/-! ## Characterisation of the natural-split search (C6) -/

/-- Separator `sep` occurs in `s` starting exactly at index `i`. -/
def occAt (s sep : List Char) (i : Nat) : Prop :=
  pySlice s i (i + sep.length) = sep

/-- Separator `sep` has an occurrence contained in the window `[start, fin)`. -/
def occursIn (s sep : List Char) (start fin : Nat) : Prop :=
  ∃ i, start ≤ i ∧ i + sep.length ≤ fin ∧ occAt s sep i

/-- Index `i` is the last occurrence of `sep` contained in the window `[start, fin)`. -/
def isLastOcc (s sep : List Char) (start fin i : Nat) : Prop :=
  (start ≤ i ∧ i + sep.length ≤ fin ∧ occAt s sep i) ∧
  ∀ j, start ≤ j → j + sep.length ≤ fin → occAt s sep j → j ≤ i

theorem pyRfind_none_iff (s sep : List Char) (start fin : Nat) :
    pyRfind s sep start fin = none ↔ ¬ occursIn s sep start fin := by
  unfold pyRfind
  rw [List.getLast?_eq_none_iff, List.filter_eq_nil_iff]
  constructor
  · rintro h ⟨i, h1, h2, h3⟩
    refine h i (List.mem_range.mpr (by omega)) ?_
    simp only [matchAt, Bool.and_eq_true, decide_eq_true_eq]
    exact ⟨⟨h1, h2⟩, h3⟩
  · intro h i hmem hp
    simp only [Bool.and_eq_true, decide_eq_true_eq, matchAt] at hp
    exact h ⟨i, hp.1.1, hp.1.2, hp.2⟩

theorem pyRfind_some_isLastOcc (s sep : List Char) (start fin i : Nat)
    (h : pyRfind s sep start fin = some i) : isLastOcc s sep start fin i := by
  unfold pyRfind at h
  obtain ⟨ys, hys⟩ := List.getLast?_eq_some_iff.mp h
  have hmem : i ∈ (List.range (fin + 1)).filter
      (fun i => decide (start ≤ i) && decide (i + sep.length ≤ fin) && matchAt s sep i) := by
    rw [hys]; exact List.mem_append.mpr (Or.inr (List.mem_singleton.mpr rfl))
  obtain ⟨-, hp⟩ := List.mem_filter.mp hmem
  simp only [Bool.and_eq_true, decide_eq_true_eq, matchAt] at hp
  refine ⟨⟨hp.1.1, hp.1.2, hp.2⟩, ?_⟩
  intro j h1 h2 h3
  have hjmem : j ∈ (List.range (fin + 1)).filter
      (fun i => decide (start ≤ i) && decide (i + sep.length ≤ fin) && matchAt s sep i) := by
    rw [List.mem_filter]
    exact ⟨List.mem_range.mpr (by omega), by simp [matchAt, h1, h2, h3, occAt] at *; exact h3⟩
  have hpw : ((List.range (fin + 1)).filter
      (fun i => decide (start ≤ i) && decide (i + sep.length ≤ fin) && matchAt s sep i)).Pairwise
        (· < ·) :=
    (List.pairwise_lt_range (fin + 1)).sublist (List.filter_sublist _)
  rw [hys] at hjmem hpw
  rcases List.mem_append.mp hjmem with hj | hj
  · have := (List.pairwise_append.mp hpw).2.2 j hj i (List.mem_singleton.mpr rfl)
    omega
  · rcases List.mem_singleton.mp hj with rfl
    omega

theorem findSplitAux_spec (text : List Char) (start he : Nat) :
    ∀ seps : List (List Char),
      ((∀ sep ∈ seps, ¬ occursIn text sep start he) ∧
        findSplitAux text start he seps = he) ∨
      (∃ pre sep post, seps = pre ++ sep :: post ∧
        (∀ sep2 ∈ pre, ¬ occursIn text sep2 start he) ∧
        ∃ i, isLastOcc text sep start he i ∧
          findSplitAux text start he seps = i + sep.length) := by
  intro seps
  induction seps with
  | nil => exact Or.inl ⟨by simp, by simp [findSplitAux]⟩
  | cons sep rest ih =>
    cases h : pyRfind text sep start he with
    | some idx =>
      have hlast := pyRfind_some_isLastOcc text sep start he idx h
      refine Or.inr ⟨[], sep, rest, rfl, by simp, idx, hlast, ?_⟩
      simp only [findSplitAux, h]
      rw [if_pos hlast.1.2.1]
    | none =>
      have hno : ¬ occursIn text sep start he := (pyRfind_none_iff text sep start he).mp h
      have heq : findSplitAux text start he (sep :: rest) = findSplitAux text start he rest := by
        simp only [findSplitAux, h]
      rcases ih with ⟨hall, hres⟩ | ⟨pre, sp, post, hdecomp, hpre, i, hli, hres⟩
      · refine Or.inl ⟨?_, by rw [heq]; exact hres⟩
        intro s2 hs2
        rcases List.mem_cons.mp hs2 with rfl | hs2
        · exact hno
        · exact hall s2 hs2
      · refine Or.inr ⟨sep :: pre, sp, post, by rw [hdecomp]; rfl, ?_, i, hli,
          by rw [heq]; exact hres⟩
        intro s2 hs2
        rcases List.mem_cons.mp hs2 with rfl | hs2
        · exact hno
        · exact hpre s2 hs2

/-- C6: with hard end `min(text_len, pos + max_size)`, the split point of
`_find_natural_split` is the end position of the last occurrence inside the
window of the highest-priority separator present (priority: double newline,
newline, period+space, space), every occurrence end being bounded by the
hard end; if no separator occurs in the window, the split is exactly the
hard end. -/
theorem find_natural_split_spec (text : List Char) (pos maxSize : Nat) :
    ((∀ sep ∈ pySeps, ¬ occursIn text sep pos (hardEndAt text maxSize pos)) ∧
      findNaturalSplit text pos (hardEndAt text maxSize pos) =
        hardEndAt text maxSize pos) ∨
    (∃ pre sep post, pySeps = pre ++ sep :: post ∧
      (∀ sep2 ∈ pre, ¬ occursIn text sep2 pos (hardEndAt text maxSize pos)) ∧
      ∃ i, isLastOcc text sep pos (hardEndAt text maxSize pos) i ∧
        findNaturalSplit text pos (hardEndAt text maxSize pos) = i + sep.length) :=
  findSplitAux_spec text pos (hardEndAt text maxSize pos) pySeps

/-! ## Reciprocal Rank Fusion (components/rrf_fusion.py)

Chunk ids are modelled as naturals; the float scores of the Python source
are modelled as exact rationals.  The `defaultdict` keeps keys in insertion
order (first-encounter order), modelled by an association list updated in
place; Python `sorted(..., reverse=True)` is a stable descending sort,
modelled by `List.mergeSort` with comparison `q.2 ≤ p.2`. -/

/-- One `scores[doc_id] += v` update on the insertion-ordered score table. -/
def addScore : List (Nat × ℚ) → Nat → ℚ → List (Nat × ℚ)
  | [], d, v => [(d, v)]
  | (d', s) :: rest, d, v =>
    if d' = d then (d', s + v) :: rest else (d', s) :: addScore rest d v

/-- The inner loop of `rrf_fuse`: `for rank, doc_id in enumerate(r_list):
scores[doc_id] += 1.0 / (k + rank + 1)`. -/
def accumList (k : Nat) (acc : List (Nat × ℚ)) (rlist : List Nat) : List (Nat × ℚ) :=
  rlist.enum.foldl (fun a rd => addScore a rd.2 (1 / ((k : ℚ) + rd.1 + 1))) acc

/-- The accumulated score table of `rrf_fuse`, keys in insertion order. -/
def rrfScores (rankLists : List (List Nat)) (k : Nat) : List (Nat × ℚ) :=
  rankLists.foldl (accumList k) []

/-- The function `rrf_fuse(rank_lists, k)`: accumulate reciprocal-rank scores, sort the
table by score descending (stable), return the doc ids. -/
def rrf_fuse (rankLists : List (List Nat)) (k : Nat) : List Nat :=
  ((rrfScores rankLists k).mergeSort (fun p q => decide (q.2 ≤ p.2))).map Prod.fst

/-- Score read-back from the table: first matching entry, 0 when absent. -/
def lookupQ (d : Nat) : List (Nat × ℚ) → ℚ
  | [] => 0
  | (d', s) :: rest => if d' = d then s else lookupQ d rest

/-- The specified RRF contribution of one rank list to id `d`:
`1 / (k + rank + 1)` at its 0-based rank, 0 if the list does not contain `d`. -/
def scoreInList (l : List Nat) (k : Nat) (d : Nat) : ℚ :=
  if d ∈ l then 1 / ((k : ℚ) + l.indexOf d + 1) else 0

/-- The specified accumulated RRF score of `d`: sum over all rank lists. -/
def rrfScoreOf (rankLists : List (List Nat)) (k : Nat) (d : Nat) : ℚ :=
  (rankLists.map (fun l => scoreInList l k d)).sum

/-- The weighted occurrence stream `(doc_id, weight)` of one rank list. -/
def weightsOf (k : Nat) (l : List Nat) : List (Nat × ℚ) :=
  l.enum.map (fun rd => (rd.2, 1 / ((k : ℚ) + rd.1 + 1)))

/-- Apply a stream of `(doc_id, weight)` updates to the score table. -/
def applyAll (acc : List (Nat × ℚ)) (ws : List (Nat × ℚ)) : List (Nat × ℚ) :=
  ws.foldl (fun a p => addScore a p.1 p.2) acc

/-- The keys of `xs` not yet in `seen`, in first-encounter order. -/
def newKeys (seen : List Nat) : List Nat → List Nat
  | [] => []
  | d :: rest => if d ∈ seen then newKeys seen rest else d :: newKeys (seen ++ [d]) rest

theorem accumList_eq_applyAll (k : Nat) (acc : List (Nat × ℚ)) (l : List Nat) :
    accumList k acc l = applyAll acc (weightsOf k l) := by
  unfold accumList applyAll weightsOf
  rw [List.foldl_map]

theorem applyAll_append (acc : List (Nat × ℚ)) (ws1 ws2 : List (Nat × ℚ)) :
    applyAll acc (ws1 ++ ws2) = applyAll (applyAll acc ws1) ws2 := by
  unfold applyAll
  rw [List.foldl_append]

theorem rrfScores_eq_applyAll (rankLists : List (List Nat)) (k : Nat) :
    rrfScores rankLists k = applyAll [] ((rankLists.map (weightsOf k)).flatten) := by
  unfold rrfScores
  suffices h : ∀ acc, List.foldl (accumList k) acc rankLists =
      applyAll acc ((rankLists.map (weightsOf k)).flatten) by
    exact h []
  induction rankLists with
  | nil => intro acc; simp [applyAll]
  | cons l rest ih =>
    intro acc
    simp only [List.foldl_cons, List.map_cons, List.flatten_cons]
    rw [applyAll_append, ← accumList_eq_applyAll]
    exact ih _

theorem keys_addScore (acc : List (Nat × ℚ)) (d : Nat) (v : ℚ) :
    (addScore acc d v).map Prod.fst =
      if d ∈ acc.map Prod.fst then acc.map Prod.fst else acc.map Prod.fst ++ [d] := by
  induction acc with
  | nil => simp [addScore]
  | cons p rest ih =>
    obtain ⟨d', s⟩ := p
    by_cases hd : d' = d
    · subst hd
      simp [addScore]
    · simp only [addScore, if_neg hd, List.map_cons, List.mem_cons]
      rw [ih]
      by_cases hmem : d ∈ rest.map Prod.fst
      · simp [hmem]
      · simp [hmem, Ne.symm hd]

theorem lookupQ_addScore_self (acc : List (Nat × ℚ)) (d : Nat) (v : ℚ) :
    lookupQ d (addScore acc d v) = lookupQ d acc + v := by
  induction acc with
  | nil => simp [addScore, lookupQ]
  | cons p rest ih =>
    obtain ⟨d', s⟩ := p
    by_cases hd : d' = d
    · subst hd
      simp [addScore, lookupQ]
    · simp [addScore, lookupQ, hd, ih]

theorem lookupQ_addScore_other (acc : List (Nat × ℚ)) (d e : Nat) (v : ℚ)
    (h : e ≠ d) : lookupQ e (addScore acc d v) = lookupQ e acc := by
  induction acc with
  | nil => simp [addScore, lookupQ, Ne.symm h]
  | cons p rest ih =>
    obtain ⟨d', s⟩ := p
    by_cases hd : d' = d
    · subst hd
      simp [addScore, lookupQ, h, Ne.symm h]
    · simp [addScore, lookupQ, hd, ih]

theorem lookupQ_applyAll (ws : List (Nat × ℚ)) :
    ∀ (acc : List (Nat × ℚ)) (e : Nat),
      lookupQ e (applyAll acc ws) =
        lookupQ e acc + ((ws.filter (fun p => p.1 = e)).map Prod.snd).sum := by
  induction ws with
  | nil => intro acc e; simp [applyAll]
  | cons p rest ih =>
    intro acc e
    obtain ⟨d, v⟩ := p
    have hstep : applyAll acc ((d, v) :: rest) = applyAll (addScore acc d v) rest := rfl
    rw [hstep, ih]
    by_cases hd : d = e
    · subst hd
      rw [lookupQ_addScore_self]
      simp only [List.filter_cons, decide_eq_true_eq, if_pos rfl]
      simp [List.sum_cons]
      ring
    · rw [lookupQ_addScore_other acc d e v (Ne.symm hd)]
      simp [List.filter_cons, hd]

theorem keys_applyAll (ws : List (Nat × ℚ)) :
    ∀ (acc : List (Nat × ℚ)),
      (applyAll acc ws).map Prod.fst =
        acc.map Prod.fst ++ newKeys (acc.map Prod.fst) (ws.map Prod.fst) := by
  induction ws with
  | nil => intro acc; simp [applyAll, newKeys]
  | cons p rest ih =>
    intro acc
    obtain ⟨d, v⟩ := p
    have hstep : applyAll acc ((d, v) :: rest) = applyAll (addScore acc d v) rest := rfl
    rw [hstep, ih, keys_addScore]
    by_cases hmem : d ∈ acc.map Prod.fst
    · simp only [if_pos hmem, List.map_cons, newKeys, if_pos hmem]
    · simp only [if_neg hmem, List.map_cons, newKeys, if_neg hmem]
      rw [List.append_assoc]
      rfl

theorem mem_newKeys (d : Nat) :
    ∀ (xs seen : List Nat), d ∈ newKeys seen xs ↔ d ∈ xs ∧ d ∉ seen := by
  intro xs
  induction xs with
  | nil => intro seen; simp [newKeys]
  | cons x rest ih =>
    intro seen
    by_cases hx : x ∈ seen
    · rw [newKeys, if_pos hx, ih]
      constructor
      · rintro ⟨h1, h2⟩; exact ⟨List.mem_cons_of_mem x h1, h2⟩
      · rintro ⟨h1, h2⟩
        rcases List.mem_cons.mp h1 with rfl | h1
        · exact absurd hx h2
        · exact ⟨h1, h2⟩
    · rw [newKeys, if_neg hx]
      constructor
      · intro h
        rcases List.mem_cons.mp h with rfl | h
        · exact ⟨List.mem_cons_self d rest, hx⟩
        · obtain ⟨h1, h2⟩ := (ih (seen ++ [x])).mp h
          simp only [List.mem_append, List.mem_singleton, not_or] at h2
          exact ⟨List.mem_cons_of_mem x h1, h2.1⟩
      · rintro ⟨h1, h2⟩
        rcases List.mem_cons.mp h1 with rfl | h1
        · exact List.mem_cons_self d _
        · by_cases hdx : d = x
          · subst hdx; exact List.mem_cons_self d _
          · refine List.mem_cons_of_mem x ((ih (seen ++ [x])).mpr ⟨h1, ?_⟩)
            simp [h2, hdx]

theorem nodup_append_newKeys :
    ∀ (xs seen : List Nat), seen.Nodup → (seen ++ newKeys seen xs).Nodup := by
  intro xs
  induction xs with
  | nil => intro seen h; simpa [newKeys] using h
  | cons x rest ih =>
    intro seen h
    by_cases hx : x ∈ seen
    · rw [newKeys, if_pos hx]; exact ih seen h
    · rw [newKeys, if_neg hx]
      have := ih (seen ++ [x]) (by simp [h, hx, List.nodup_append])
      simpa [List.append_assoc] using this

theorem pairwise_newKeys :
    ∀ (xs seen : List Nat),
      (newKeys seen xs).Pairwise (fun a b => xs.indexOf a < xs.indexOf b) := by
  intro xs
  induction xs with
  | nil => intro seen; simp [newKeys]
  | cons x rest ih =>
    intro seen
    by_cases hx : x ∈ seen
    · rw [newKeys, if_pos hx]
      refine ((ih seen).imp_of_mem ?_)
      intro a b ha hb hlt
      have ha' := (mem_newKeys a rest seen).mp ha
      have hb' := (mem_newKeys b rest seen).mp hb
      have hax : a ≠ x := fun h => ha'.2 (h ▸ hx)
      have hbx : b ≠ x := fun h => hb'.2 (h ▸ hx)
      rw [List.indexOf_cons_ne rest (Ne.symm hax), List.indexOf_cons_ne rest (Ne.symm hbx)]
      omega
    · rw [newKeys, if_neg hx]
      refine List.Pairwise.cons ?_ (((ih (seen ++ [x])).imp_of_mem ?_))
      · intro b hb
        have hb' := (mem_newKeys b rest (seen ++ [x])).mp hb
        have hbx : b ≠ x := by
          intro h
          exact hb'.2 (by simp [h])
        rw [List.indexOf_cons_self, List.indexOf_cons_ne rest (Ne.symm hbx)]
        omega
      · intro a b ha hb hlt
        have ha' := (mem_newKeys a rest (seen ++ [x])).mp ha
        have hb' := (mem_newKeys b rest (seen ++ [x])).mp hb
        have hax : a ≠ x := by intro h; exact ha'.2 (by simp [h])
        have hbx : b ≠ x := by intro h; exact hb'.2 (by simp [h])
        rw [List.indexOf_cons_ne rest (Ne.symm hax), List.indexOf_cons_ne rest (Ne.symm hbx)]
        omega

theorem weightsOf_keys (k : Nat) (l : List Nat) :
    (weightsOf k l).map Prod.fst = l := by
  unfold weightsOf
  rw [List.map_map]
  exact List.enum_map_snd l

theorem keys_rrfScores (rankLists : List (List Nat)) (k : Nat) :
    (rrfScores rankLists k).map Prod.fst = newKeys [] rankLists.flatten := by
  rw [rrfScores_eq_applyAll, keys_applyAll]
  simp only [List.map_nil, List.nil_append, List.map_flatten, List.map_map]
  congr 1
  congr 1
  rw [show (List.map Prod.fst ∘ weightsOf k) = fun l => (weightsOf k l).map Prod.fst from rfl]
  rw [List.map_congr_left (fun l _ => weightsOf_keys k l)]
  exact List.map_id rankLists

theorem nodup_keys_rrfScores (rankLists : List (List Nat)) (k : Nat) :
    ((rrfScores rankLists k).map Prod.fst).Nodup := by
  rw [keys_rrfScores]
  simpa using nodup_append_newKeys rankLists.flatten [] List.nodup_nil

theorem mem_keys_rrfScores (rankLists : List (List Nat)) (k : Nat) (d : Nat) :
    d ∈ (rrfScores rankLists k).map Prod.fst ↔ d ∈ rankLists.flatten := by
  rw [keys_rrfScores, mem_newKeys]
  simp

theorem pairwise_keys_rrfScores (rankLists : List (List Nat)) (k : Nat) :
    ((rrfScores rankLists k).map Prod.fst).Pairwise
      (fun a b => rankLists.flatten.indexOf a < rankLists.flatten.indexOf b) := by
  rw [keys_rrfScores]
  exact pairwise_newKeys rankLists.flatten []

theorem lookupQ_of_mem (d : Nat) (s : ℚ) :
    ∀ ps : List (Nat × ℚ), (ps.map Prod.fst).Nodup → (d, s) ∈ ps → lookupQ d ps = s := by
  intro ps
  induction ps with
  | nil => intro _ h; cases h
  | cons p rest ih =>
    intro hnd h
    obtain ⟨d', s'⟩ := p
    rcases List.mem_cons.mp h with heq | hmem
    · cases heq
      simp [lookupQ]
    · have hd : d' ≠ d := by
        intro hdd
        subst hdd
        have : d' ∈ rest.map Prod.fst :=
          List.mem_map.mpr ⟨(d', s), hmem, rfl⟩
        exact (List.nodup_cons.mp (by simpa using hnd)).1 this
      simp only [lookupQ, if_neg hd]
      exact ih (List.nodup_cons.mp (by simpa using hnd)).2 hmem

theorem enumFrom_filter_eq (d : Nat) :
    ∀ (l : List Nat) (n : Nat), l.Nodup →
      (l.enumFrom n).filter (fun rd => rd.2 = d) =
        if d ∈ l then [(n + l.indexOf d, d)] else [] := by
  intro l
  induction l with
  | nil => intro n _; simp
  | cons x rest ih =>
    intro n hnd
    rw [List.enumFrom_cons]
    by_cases hx : x = d
    · subst hx
      have hdn : x ∉ rest := (List.nodup_cons.mp hnd).1
      rw [List.filter_cons]
      simp only [decide_eq_true_eq, if_pos rfl]
      rw [ih (n + 1) (List.nodup_cons.mp hnd).2, if_neg hdn]
      simp [List.indexOf_cons_self]
    · rw [List.filter_cons]
      simp only [decide_eq_true_eq, if_neg hx]
      rw [ih (n + 1) (List.nodup_cons.mp hnd).2]
      by_cases hmem : d ∈ rest
      · rw [if_pos hmem, if_pos (List.mem_cons_of_mem x hmem)]
        rw [List.indexOf_cons_ne rest (Ne.symm (fun h => hx h.symm))]
        simp only [List.cons.injEq, Prod.mk.injEq, and_true]
        omega
      · rw [if_neg hmem, if_neg (by simp [hmem, Ne.symm (fun h => hx h.symm)]; exact fun h => hx h.symm)]

theorem filter_weights_sum (k : Nat) (l : List Nat) (d : Nat) (hnd : l.Nodup) :
    (((weightsOf k l).filter (fun p => p.1 = d)).map Prod.snd).sum =
      scoreInList l k d := by
  unfold weightsOf
  rw [List.filter_map]
  have hcomp : ((fun p : Nat × ℚ => decide (p.1 = d)) ∘
      (fun rd : Nat × Nat => ((rd.2 : Nat), (1 : ℚ) / ((k : ℚ) + rd.1 + 1)))) =
      fun rd : Nat × Nat => decide (rd.2 = d) := by
    funext rd; rfl
  rw [hcomp]
  have henum : l.enum = l.enumFrom 0 := rfl
  rw [henum, enumFrom_filter_eq d l 0 hnd]
  unfold scoreInList
  by_cases hmem : d ∈ l
  · rw [if_pos hmem, if_pos hmem]
    simp
  · rw [if_neg hmem, if_neg hmem]
    simp

theorem lookupQ_rrfScores (rankLists : List (List Nat)) (k : Nat) (d : Nat)
    (hnd : ∀ l ∈ rankLists, l.Nodup) :
    lookupQ d (rrfScores rankLists k) = rrfScoreOf rankLists k d := by
  rw [rrfScores_eq_applyAll, lookupQ_applyAll]
  simp only [lookupQ, zero_add]
  rw [List.filter_flatten, List.map_flatten, List.sum_flatten]
  unfold rrfScoreOf
  simp only [List.map_map]
  congr 1
  refine List.map_congr_left ?_
  intro l hl
  exact filter_weights_sum k l d (hnd l hl)

/-! ## Stable sorting facts used for the fused order -/

/-- In a `Pairwise R` list with asymmetric `R`, two members related by `R`
appear in that relative order (as a two-element sublist). -/
theorem pair_sublist_of_pairwise {α : Type} {R : α → α → Prop}
    (hasym : ∀ a b, R a b → R b a → False) :
    ∀ (l : List α), l.Pairwise R → ∀ p q, p ∈ l → q ∈ l → R q p →
      List.Sublist [q, p] l := by
  intro l
  induction l with
  | nil => intro _ p q hp _ _; cases hp
  | cons x rest ih =>
    intro hpw p q hp hq hR
    by_cases hqx : q = x
    · subst hqx
      by_cases hpx : p = q
      · subst hpx
        exact absurd hR (fun h => hasym _ _ h h)
      · have hp2 : p ∈ rest := by
          rcases List.mem_cons.mp hp with h | h
          · exact absurd h hpx
          · exact h
        exact List.Sublist.cons₂ q (List.singleton_sublist.mpr hp2)
    · have hq2 : q ∈ rest := by
        rcases List.mem_cons.mp hq with h | h
        · exact absurd h hqx
        · exact h
      by_cases hpx : p = x
      · subst hpx
        exact absurd (List.rel_of_pairwise_cons hpw hq2) (fun h => hasym _ _ h hR)
      · have hp2 : p ∈ rest := by
          rcases List.mem_cons.mp hp with h | h
          · exact absurd h hpx
          · exact h
        exact List.Sublist.cons x (ih (List.pairwise_cons.mp hpw).2 p q hp2 hq2 hR)

/-- Two distinct members of a duplicate-free list cannot occur in both
relative orders. -/
theorem not_pair_sublist_both {α : Type} :
    ∀ (l : List α), l.Nodup → ∀ a b : α, a ≠ b →
      List.Sublist [a, b] l → List.Sublist [b, a] l → False := by
  intro l
  induction l with
  | nil => intro _ a b _ h _; cases h
  | cons x rest ih =>
    intro hnd a b hne hab hba
    rcases List.sublist_cons_iff.mp hab with hab2 | ⟨r1, hr1, hr1s⟩
    · rcases List.sublist_cons_iff.mp hba with hba2 | ⟨r2, hr2, hr2s⟩
      · exact ih (List.nodup_cons.mp hnd).2 a b hne hab2 hba2
      · -- b = x and [a] <+ rest, while [a, b] <+ rest: so b is in rest
        have hbx : b = x := (List.cons.injEq _ _ _ _).mp hr2 |>.1.symm ▸ rfl
        have hbmem : b ∈ rest := hab2.subset (by simp)
        rw [List.cons.injEq] at hr2
        exact (List.nodup_cons.mp hnd).1 (hr2.1 ▸ hbmem)
    · -- a = x and [b] <+ rest
      rw [List.cons.injEq] at hr1
      obtain ⟨hax, hr1tail⟩ := hr1
      rcases List.sublist_cons_iff.mp hba with hba2 | ⟨r2, hr2, hr2s⟩
      · have hamem : a ∈ rest := hba2.subset (by simp)
        exact (List.nodup_cons.mp hnd).1 (hax ▸ hamem)
      · rw [List.cons.injEq] at hr2
        exact hne (hax.trans hr2.1.symm)

/-- The comparison handed to the stable sort: score of the left argument at
least the score of the right (descending sort on scores). -/
def scoreDescLe (p q : Nat × ℚ) : Bool := decide (q.2 ≤ p.2)

theorem scoreDescLe_trans (a b c : Nat × ℚ) :
    scoreDescLe a b → scoreDescLe b c → scoreDescLe a c := by
  simp only [scoreDescLe, decide_eq_true_eq]
  exact fun h1 h2 => le_trans h2 h1

theorem scoreDescLe_total (a b : Nat × ℚ) : scoreDescLe a b || scoreDescLe b a := by
  simp only [scoreDescLe]
  rcases le_total a.2 b.2 with h | h <;> simp [h]

/-- C3: `rrf_fuse` returns exactly the distinct chunk ids appearing in at
least one input list, ordered by strictly descending accumulated score —
each id's score being the sum over the lists containing it of
`1 / (k + rank + 1)` with `rank` its 0-based position — and score-ties
broken by first-encounter order (first list, then position within it,
i.e. position of first occurrence in the concatenation of the lists). -/
theorem rrf_fuse_spec (rankLists : List (List Nat)) (k : Nat)
    (hnd : ∀ l ∈ rankLists, l.Nodup) :
    (rrf_fuse rankLists k).Nodup ∧
    (∀ d, d ∈ rrf_fuse rankLists k ↔ ∃ l ∈ rankLists, d ∈ l) ∧
    (rrf_fuse rankLists k).Pairwise (fun a b =>
      rrfScoreOf rankLists k b < rrfScoreOf rankLists k a ∨
      (rrfScoreOf rankLists k a = rrfScoreOf rankLists k b ∧
        rankLists.flatten.indexOf a < rankLists.flatten.indexOf b)) := by
  have hdef : rrf_fuse rankLists k =
      ((rrfScores rankLists k).mergeSort scoreDescLe).map Prod.fst := rfl
  set ps := rrfScores rankLists k with hps
  set sorted := ps.mergeSort scoreDescLe with hsortdef
  have hperm : sorted.Perm ps := List.mergeSort_perm ps scoreDescLe
  have hkeysperm : (sorted.map Prod.fst).Perm (ps.map Prod.fst) := hperm.map Prod.fst
  have hpsnodup : (ps.map Prod.fst).Nodup := nodup_keys_rrfScores rankLists k
  have houtnodup : (sorted.map Prod.fst).Nodup := hkeysperm.nodup_iff.mpr hpsnodup
  have hmemkeys : ∀ d, d ∈ sorted.map Prod.fst ↔ d ∈ rankLists.flatten := by
    intro d
    rw [hkeysperm.mem_iff]
    exact mem_keys_rrfScores rankLists k d
  have hscore : ∀ p : Nat × ℚ, p ∈ ps → p.2 = rrfScoreOf rankLists k p.1 := by
    intro p hp
    have h1 : lookupQ p.1 ps = p.2 := lookupQ_of_mem p.1 p.2 ps hpsnodup hp
    rw [← h1, hps]
    exact lookupQ_rrfScores rankLists k p.1 hnd
  rw [hdef]
  refine ⟨houtnodup, ?_, ?_⟩
  · intro d
    rw [hmemkeys d]
    exact List.mem_flatten
  · rw [List.pairwise_iff_forall_sublist]
    intro a b hsub
    obtain ⟨l2, hl2sub, hl2eq⟩ := List.sublist_map_iff.mp hsub
    obtain ⟨pa, pb, rfl⟩ : ∃ pa pb, l2 = [pa, pb] := by
      rcases l2 with _ | ⟨pa, l3⟩
      · simp at hl2eq
      rcases l3 with _ | ⟨pb, l4⟩
      · simp at hl2eq
      rcases l4 with _ | ⟨pc, l5⟩
      · exact ⟨pa, pb, rfl⟩
      · simp at hl2eq
    simp only [List.map_cons, List.map_nil, List.cons.injEq, and_true] at hl2eq
    obtain ⟨ha, hb⟩ := hl2eq
    subst ha
    subst hb
    have hpas : pa ∈ sorted := hl2sub.subset (by simp)
    have hpbs : pb ∈ sorted := hl2sub.subset (by simp)
    have hpaps : pa ∈ ps := List.mem_mergeSort.mp hpas
    have hpbps : pb ∈ ps := List.mem_mergeSort.mp hpbs
    have hws := List.sorted_mergeSort scoreDescLe_trans scoreDescLe_total ps
    have hle := List.pairwise_iff_forall_sublist.mp hws hl2sub
    have hlescore : pb.2 ≤ pa.2 := by simpa [scoreDescLe] using hle
    rcases lt_or_eq_of_le hlescore with hlt | heq
    · left
      rw [← hscore pa hpaps, ← hscore pb hpbps]
      exact hlt
    · rcases Nat.lt_trichotomy (rankLists.flatten.indexOf pa.1)
        (rankLists.flatten.indexOf pb.1) with hidx | hidx | hidx
      · right
        refine ⟨?_, hidx⟩
        rw [← hscore pa hpaps, ← hscore pb hpbps, heq]
      · exfalso
        have hamem : pa.1 ∈ rankLists.flatten :=
          (hmemkeys pa.1).mp (List.mem_map_of_mem Prod.fst hpas)
        have hbmem : pb.1 ∈ rankLists.flatten :=
          (hmemkeys pb.1).mp (List.mem_map_of_mem Prod.fst hpbs)
        have heqk : pa.1 = pb.1 := (List.indexOf_inj hamem hbmem).mp hidx
        rw [heqk] at hsub
        exact List.nodup_iff_sublist.mp houtnodup pb.1 hsub
      · exfalso
        have hT : ps.Pairwise (fun p q =>
            rankLists.flatten.indexOf p.1 < rankLists.flatten.indexOf q.1) := by
          have h0 := pairwise_keys_rrfScores rankLists k
          rw [List.pairwise_map] at h0
          exact h0
        have hpair2 : List.Sublist [pb, pa] ps :=
          pair_sublist_of_pairwise (fun u v h1 h2 => by omega) ps hT pa pb hpaps hpbps hidx
        have hle2 : scoreDescLe pb pa := by simp [scoreDescLe, heq]
        have hpair3 : List.Sublist [pb, pa] sorted :=
          List.pair_sublist_mergeSort scoreDescLe_trans scoreDescLe_total hle2 hpair2
        have hpair4 : List.Sublist [pb.1, pa.1] (sorted.map Prod.fst) := by
          have hm := hpair3.map Prod.fst
          simpa using hm
        have hne : pa.1 ≠ pb.1 := fun h => by rw [h] at hidx; omega
        exact not_pair_sublist_both (sorted.map Prod.fst) houtnodup pa.1 pb.1 hne hsub hpair4

theorem rrf_fuse_spec_witness :
    (rrf_fuse [[0, 1], [1, 0]] 60).Nodup ∧
    (∀ d, d ∈ rrf_fuse [[0, 1], [1, 0]] 60 ↔ ∃ l ∈ [[0, 1], [1, 0]], d ∈ l) ∧
    (rrf_fuse [[0, 1], [1, 0]] 60).Pairwise (fun a b =>
      rrfScoreOf [[0, 1], [1, 0]] 60 b < rrfScoreOf [[0, 1], [1, 0]] 60 a ∨
      (rrfScoreOf [[0, 1], [1, 0]] 60 a = rrfScoreOf [[0, 1], [1, 0]] 60 b ∧
        ([[0, 1], [1, 0]] : List (List Nat)).flatten.indexOf a <
          ([[0, 1], [1, 0]] : List (List Nat)).flatten.indexOf b)) :=
  rrf_fuse_spec [[0, 1], [1, 0]] 60 (by decide)

/-- C4: (monotonicity) for a fixed damping constant `k`, an id that appears
in every list some other id appears in, at a rank at least as high, ends up
with an accumulated score at least as high; (tie) for the rank lists
`[[a, b], [b, a]]` with `k = 60`, both ids accumulate the identical score
`1/61 + 1/62`, so symmetric fusion of two equal-length reversed lists
scores them as a tie. -/
theorem rrf_monotone_and_tie :
    (∀ (rankLists : List (List Nat)) (k : Nat) (a b : Nat),
      (∀ l ∈ rankLists, l.Nodup) →
      (∀ l ∈ rankLists, b ∈ l → a ∈ l ∧ l.indexOf a ≤ l.indexOf b) →
      lookupQ b (rrfScores rankLists k) ≤ lookupQ a (rrfScores rankLists k)) ∧
    lookupQ 0 (rrfScores [[0, 1], [1, 0]] 60) = 1 / 61 + 1 / 62 ∧
    lookupQ 1 (rrfScores [[0, 1], [1, 0]] 60) = 1 / 61 + 1 / 62 := by
  refine ⟨?_, ?_, ?_⟩
  · intro rankLists k a b hnd hdom
    rw [lookupQ_rrfScores rankLists k a hnd, lookupQ_rrfScores rankLists k b hnd]
    unfold rrfScoreOf
    refine List.sum_le_sum ?_
    intro l hl
    unfold scoreInList
    by_cases hb : b ∈ l
    · obtain ⟨ha, hidx⟩ := hdom l hl hb
      rw [if_pos hb, if_pos ha]
      have hpos : (0 : ℚ) < (k : ℚ) + (l.indexOf a : ℚ) + 1 := by positivity
      refine one_div_le_one_div_of_le hpos ?_
      have : (l.indexOf a : ℚ) ≤ (l.indexOf b : ℚ) := by exact_mod_cast hidx
      linarith
    · rw [if_neg hb]
      by_cases ha : a ∈ l
      · rw [if_pos ha]; positivity
      · rw [if_neg ha]
  · norm_num [rrfScores, accumList, addScore, lookupQ, List.enum, List.enumFrom, List.foldl]
  · norm_num [rrfScores, accumList, addScore, lookupQ, List.enum, List.enumFrom, List.foldl]

theorem rrf_monotone_and_tie_witness :
    lookupQ 7 (rrfScores [[5, 7]] 60) ≤ lookupQ 5 (rrfScores [[5, 7]] 60) :=
  rrf_monotone_and_tie.1 [[5, 7]] 60 5 7 (by decide) (by decide)

/-! ## Isolated reranker call (rag_backend.py, retrieve_with_reranking)

The subprocess round-trip is a black box for the caller; its outcome is a
parameter: either spawning/communicating raised, or the worker exited with
a return code and stdout that fails to parse, parses to an object carrying
an error key, carries a scores array, or carries neither key. -/

/-- The parse of the worker's stdout. -/
inductive ParsedOut where
  | parseError : ParsedOut
  | errorKey : String → ParsedOut
  | scoresKey : List ℚ → ParsedOut
  | otherJson : ParsedOut
deriving Repr, DecidableEq

/-- The observable outcome of one worker subprocess invocation. -/
inductive WorkerOutcome where
  | spawnError : WorkerOutcome
  | exited : Int → ParsedOut → WorkerOutcome
deriving Repr, DecidableEq

/-- The body of the `try:` block of `retrieve_with_reranking` from the
worker invocation on: every Python `raise` becomes `Except.error`; on
success the candidates are paired with their scores, sorted by score
descending (stable), and truncated to `top_k`. -/
def rerankTryBody (outcome : WorkerOutcome) (cands : List Nat) (topK : Nat) :
    Except String (List Nat × List ℚ) :=
  match outcome with
  | .spawnError => .error "subprocess invocation failed"
  | .exited rc out =>
    if rc ≠ 0 then .error "Reranker worker failed"
    else
      match out with
      | .parseError => .error "Failed to parse reranker output"
      | .errorKey msg => .error ("Reranker error: " ++ msg)
      | .otherJson => .error "KeyError: scores"
      | .scoresKey scores =>
        let combined := (cands.zip scores).mergeSort (fun p q => decide (q.2 ≤ p.2))
        let top := combined.take topK
        .ok (top.map Prod.fst, top.map Prod.snd)

/-- The fallback value `candidate_indices[:top_k], [1.0] * min(len(candidate_indices), top_k)`. -/
def denseFallback (cands : List Nat) (topK : Nat) : List Nat × List ℚ :=
  (cands.take topK, List.replicate (min cands.length topK) 1)

/-- The method `retrieve_with_reranking(query, top_k)`: dense retrieval first with
`candidate_k = max(top_k * 3, 30)` (dense retrieval is the oracle `dense`),
then the disabled-reranker early return, or the worker call whose
exception handler falls back to the dense order. -/
def retrieve_with_reranking (dense : Nat → List Nat) (useReranker : Bool)
    (outcome : WorkerOutcome) (topK : Nat) : List Nat × List ℚ :=
  let candidateK := max (topK * 3) 30
  let cands := dense candidateK
  if !useReranker then denseFallback cands topK
  else
    match rerankTryBody outcome cands topK with
    | .ok r => r
    | .error _ => denseFallback cands topK

/-- All the failure modes of one worker invocation. -/
def workerFailed : WorkerOutcome → Prop
  | .spawnError => True
  | .exited rc out =>
    rc ≠ 0 ∨ out = .parseError ∨ (∃ m, out = .errorKey m) ∨ out = .otherJson

theorem rerankTryBody_error (outcome : WorkerOutcome) (cands : List Nat)
    (topK : Nat) (hfail : workerFailed outcome) :
    ∃ e, rerankTryBody outcome cands topK = Except.error e := by
  cases outcome with
  | spawnError => exact ⟨_, rfl⟩
  | exited rc out =>
    by_cases hrc : rc ≠ 0
    · exact ⟨"Reranker worker failed", by simp [rerankTryBody, hrc]⟩
    · simp only [workerFailed] at hfail
      rcases hfail with h | h | ⟨m, h⟩ | h
      · exact absurd h hrc
      · subst h
        exact ⟨"Failed to parse reranker output", by simp [rerankTryBody, hrc]⟩
      · subst h
        exact ⟨"Reranker error: " ++ m, by simp [rerankTryBody, hrc]⟩
      · subst h
        exact ⟨"KeyError: scores", by simp [rerankTryBody, hrc]⟩

/-- C1: whenever the worker invocation fails in any way (spawn failure,
non-zero exit code, unparseable stdout, error descriptor, or a response
with neither key), `retrieve_with_reranking` returns exactly the first
`top_k` dense candidates in dense order, each paired with the placeholder
score 1, and the failure is not propagated (the function returns a value
on every outcome). -/
theorem rerank_fallback (dense : Nat → List Nat) (useReranker : Bool)
    (outcome : WorkerOutcome) (topK : Nat) (hfail : workerFailed outcome) :
    retrieve_with_reranking dense useReranker outcome topK =
      ((dense (max (topK * 3) 30)).take topK,
        List.replicate (min (dense (max (topK * 3) 30)).length topK) 1) := by
  unfold retrieve_with_reranking
  dsimp only
  cases useReranker with
  | false => rfl
  | true =>
    obtain ⟨e, he⟩ := rerankTryBody_error outcome (dense (max (topK * 3) 30)) topK hfail
    simp [he, denseFallback]

theorem rerank_fallback_witness :
    workerFailed WorkerOutcome.spawnError ∧
    retrieve_with_reranking (fun n => List.range n) true WorkerOutcome.spawnError 2 =
      ((List.range (max (2 * 3) 30)).take 2,
        List.replicate (min (List.range (max (2 * 3) 30)).length 2) 1) :=
  ⟨trivial, rerank_fallback (fun n => List.range n) true WorkerOutcome.spawnError 2 trivial⟩

/-! ## Index loading (rag_backend.py, _load_indices) -/

/-- Which persisted artifact backs the active index after loading. -/
inductive ActiveIndex where
  | contentIdx : ActiveIndex
  | tfidfIdx : ActiveIndex
  | prefixIdx : ActiveIndex
  | legacyIdx : ActiveIndex
deriving Repr, DecidableEq

/-- Presence of the four persisted index files in the embedding directory. -/
structure IndexFiles where
  contentExists : Bool
  tfidfExists : Bool
  prefixExists : Bool
  legacyExists : Bool
deriving Repr, DecidableEq

/-- The method `_load_indices`: when all three variant files exist, the active index
is selected by `index_choice` (an unknown choice silently becomes the
prefix variant); otherwise, if the legacy single-index file `index.faiss`
exists it is served as every variant; otherwise `FileNotFoundError` is
raised.  Returns the artifact backing `self.index` and the effective
`index_choice` attribute. -/
def load_indices (files : IndexFiles) (indexChoice : String) :
    Except String (ActiveIndex × String) :=
  if files.contentExists && files.tfidfExists && files.prefixExists then
    let choice :=
      if indexChoice = "content" || indexChoice = "tfidf" || indexChoice = "prefix" then
        indexChoice
      else "prefix"
    let active :=
      if choice = "content" then ActiveIndex.contentIdx
      else if choice = "tfidf" then ActiveIndex.tfidfIdx
      else ActiveIndex.prefixIdx
    Except.ok (active, choice)
  else if !files.legacyExists then
    Except.error "No FAISS indices found"
  else
    Except.ok (ActiveIndex.legacyIdx, indexChoice)

/-- C2 fails as stated: with the configured `content` variant's index file
absent but the legacy `index.faiss` present, `_load_indices` raises no
error and silently serves the legacy single index in place of the
requested variant. -/
theorem load_indices_counterexample :
    load_indices ⟨false, true, true, true⟩ "content" =
      Except.ok (ActiveIndex.legacyIdx, "content") ∧
    ActiveIndex.legacyIdx ≠ ActiveIndex.contentIdx ∧
    ∀ e, load_indices ⟨false, true, true, true⟩ "content" ≠ Except.error e := by
  have h1 : load_indices ⟨false, true, true, true⟩ "content" =
      Except.ok (ActiveIndex.legacyIdx, "content") := rfl
  exact ⟨h1, by decide, fun e h => by rw [h1] at h; cases h⟩

/-- C2 (amended): a hard `FileNotFoundError` is raised exactly when the
three-variant file set is incomplete and the legacy `index.faiss` is also
absent; with all three variant files present the requested variant is
served (an unknown choice silently becomes prefix); with the variant set
incomplete but the legacy file present, the legacy single index is
silently substituted for the requested variant. -/
theorem load_indices_amended (files : IndexFiles) (choice : String) :
    ((files.contentExists && files.tfidfExists && files.prefixExists) = false →
      files.legacyExists = false →
      load_indices files choice = Except.error "No FAISS indices found") ∧
    ((files.contentExists && files.tfidfExists && files.prefixExists) = false →
      files.legacyExists = true →
      load_indices files choice = Except.ok (ActiveIndex.legacyIdx, choice)) ∧
    ((files.contentExists && files.tfidfExists && files.prefixExists) = true →
      choice = "content" →
      load_indices files choice = Except.ok (ActiveIndex.contentIdx, "content")) ∧
    ((files.contentExists && files.tfidfExists && files.prefixExists) = true →
      choice = "tfidf" →
      load_indices files choice = Except.ok (ActiveIndex.tfidfIdx, "tfidf")) ∧
    ((files.contentExists && files.tfidfExists && files.prefixExists) = true →
      choice = "prefix" →
      load_indices files choice = Except.ok (ActiveIndex.prefixIdx, "prefix")) ∧
    ((files.contentExists && files.tfidfExists && files.prefixExists) = true →
      choice ≠ "content" → choice ≠ "tfidf" → choice ≠ "prefix" →
      load_indices files choice = Except.ok (ActiveIndex.prefixIdx, "prefix")) := by
  refine ⟨?_, ?_, ?_, ?_, ?_, ?_⟩
  · intro hv hl
    simp [load_indices, hv, hl]
  · intro hv hl
    simp [load_indices, hv, hl]
  · intro hv hc
    subst hc
    simp [load_indices, hv]
  · intro hv hc
    subst hc
    simp [load_indices, hv]
  · intro hv hc
    subst hc
    simp [load_indices, hv]
  · intro hv h1 h2 h3
    simp [load_indices, hv, h1, h2, h3]

theorem load_indices_amended_witness :
    load_indices ⟨false, true, true, false⟩ "content" =
      Except.error "No FAISS indices found" :=
  (load_indices_amended ⟨false, true, true, false⟩ "content").1 rfl rfl

/-! ## Diverse triple beam search (components/gear_beam_search.py)

Triples are `(subject, predicate, object)` over an abstract entity type.
The query-similarity scorer `score_triple` (an external embedding model
plus cosine similarity) is the oracle `score`; the diversity penalty
`math.exp(-min(rank, gamma))` is the oracle `pen`, a function of the
0-based rank (its defining properties: `pen 0 = exp 0 = 1` and
`pen r < 1` for `r ≥ 1` when `gamma > 0`). -/

/-- The function `get_neighbors(triple, all_triples)`: the triples sharing a subject or
object with the given triple, excluding the triple itself, in input order. -/
def get_neighbors {α : Type} [DecidableEq α] (t : α × α × α)
    (allT : List (α × α × α)) : List (α × α × α) :=
  allT.filter (fun u =>
    decide (u ≠ t) &&
      (decide (u.1 = t.1) || decide (u.1 = t.2.2) ||
        decide (u.2.2 = t.1) || decide (u.2.2 = t.2.2)))

/-- The initial beams: each seed triple scored individually, sorted by
score descending (stable), truncated to `beam_size`. -/
def initBeams {α : Type} (score : α × α × α → ℚ) (Tq : List (α × α × α))
    (beamSize : Nat) : List (ℚ × List (α × α × α)) :=
  ((Tq.map (fun t => (score t, [t]))).mergeSort
    (fun p q => decide (q.1 ≤ p.1))).take beamSize

/-- One expansion pass: each beam is extended by every neighbor of its last
triple that is not already in the chain, the new chain scored as
`(score * len(seq) + new_score) / len(new_seq)` where `score` is the
carried chain score. -/
def expandBeams {α : Type} [DecidableEq α] (score : α × α × α → ℚ)
    (allT : List (α × α × α)) (beams : List (ℚ × List (α × α × α))) :
    List (ℚ × List (α × α × α)) :=
  beams.flatMap (fun sq =>
    match sq.2.getLast? with
    | none => []
    | some last =>
      (get_neighbors last allT).filterMap (fun nb =>
        if nb ∈ sq.2 then none
        else
          some ((sq.1 * (sq.2.length : ℚ) + score nb) / ((sq.2.length : ℚ) + 1),
            sq.2 ++ [nb])))

/-- The diversity penalty and pruning of one iteration: sort the candidates
by raw score descending, multiply the score at 0-based `rank` by
`pen rank`, re-sort, keep the best `beam_size`. -/
def penalizeAndPrune {α : Type} (pen : Nat → ℚ) (beamSize : Nat)
    (cands : List (ℚ × List (α × α × α))) : List (ℚ × List (α × α × α)) :=
  (((cands.mergeSort (fun p q => decide (q.1 ≤ p.1))).enum.map
      (fun rp => (rp.2.1 * pen rp.1, rp.2.2))).mergeSort
    (fun p q => decide (q.1 ≤ p.1))).take beamSize

/-- One iteration of the `for _ in range(1, max_length)` loop. -/
def beamStep {α : Type} [DecidableEq α] (score : α × α × α → ℚ) (pen : Nat → ℚ)
    (allT : List (α × α × α)) (beamSize : Nat)
    (beams : List (ℚ × List (α × α × α))) : List (ℚ × List (α × α × α)) :=
  penalizeAndPrune pen beamSize (expandBeams score allT beams)

/-- The function `diverse_triple_beam_search(query, T_q, all_triples, beam_size,
max_length, gamma)`: `max_length - 1` iterations over the initial beams,
returning the chains of the surviving beams. -/
def diverse_triple_beam_search {α : Type} [DecidableEq α]
    (score : α × α × α → ℚ) (pen : Nat → ℚ) (Tq allT : List (α × α × α))
    (beamSize maxLength : Nat) : List (List (α × α × α)) :=
  ((beamStep score pen allT beamSize)^[maxLength - 1]
    (initBeams score Tq beamSize)).map Prod.snd

/-- The arithmetic mean of the chain's individual triple scores. -/
def meanScore {α : Type} (score : α × α × α → ℚ) (chain : List (α × α × α)) : ℚ :=
  (chain.map score).sum / (chain.length : ℚ)

/-! Concrete instance on which the raw-score claim fails: two disjoint
subject-object chains `1→2→3` and `10→11→12→13`, the first one scoring 1
per triple and the second 1/2 per triple; penalty oracle with
`pen 0 = 1, pen r = 1/2` for `r ≥ 1` (the shape of `exp(-min(rank, 1))`). -/

def cexT1 : Nat × Nat × Nat := (1, 0, 2)

def cexT2 : Nat × Nat × Nat := (10, 0, 11)

def cexT3 : Nat × Nat × Nat := (2, 0, 3)

def cexT4 : Nat × Nat × Nat := (11, 0, 12)

def cexT5 : Nat × Nat × Nat := (12, 0, 13)

def cexScore : Nat × Nat × Nat → ℚ := fun t => if t = cexT1 ∨ t = cexT3 then 1 else 1 / 2

def cexPen : Nat → ℚ := fun r => if r = 0 then 1 else 1 / 2

def cexTq : List (Nat × Nat × Nat) := [cexT1, cexT2]

def cexAll : List (Nat × Nat × Nat) := [cexT1, cexT2, cexT3, cexT4, cexT5]

theorem cex_init : initBeams cexScore cexTq 2 = [(1, [cexT1]), (1 / 2, [cexT2])] := by
  have hmap : cexTq.map (fun t => (cexScore t, [t])) =
      [(1, [cexT1]), ((1 : ℚ) / 2, [cexT2])] := by
    norm_num [cexTq, cexScore, cexT1, cexT2, cexT3]
  unfold initBeams
  rw [hmap, List.mergeSort_of_sorted (by norm_num [List.pairwise_cons])]
  rfl

theorem cex_expand1 :
    expandBeams cexScore cexAll [(1, [cexT1]), (1 / 2, [cexT2])] =
      [(1, [cexT1, cexT3]), (1 / 2, [cexT2, cexT4])] := by
  norm_num [expandBeams, get_neighbors, cexAll, cexScore, cexTq,
    cexT1, cexT2, cexT3, cexT4, cexT5, List.flatMap, List.filterMap]

theorem cex_step1 :
    beamStep cexScore cexPen cexAll 2 [(1, [cexT1]), (1 / 2, [cexT2])] =
      [(1, [cexT1, cexT3]), (1 / 4, [cexT2, cexT4])] := by
  unfold beamStep
  rw [cex_expand1]
  unfold penalizeAndPrune
  have hsort1 : (([(1, [cexT1, cexT3]), ((1 : ℚ) / 2, [cexT2, cexT4])]).mergeSort
      (fun p q => decide (q.1 ≤ p.1))) =
      [(1, [cexT1, cexT3]), ((1 : ℚ) / 2, [cexT2, cexT4])] :=
    List.mergeSort_of_sorted (by norm_num [List.pairwise_cons])
  have hpen : ((([(1, [cexT1, cexT3]), ((1 : ℚ) / 2, [cexT2, cexT4])]).enum).map
      (fun rp => (rp.2.1 * cexPen rp.1, rp.2.2))) =
      [(1, [cexT1, cexT3]), ((1 : ℚ) / 4, [cexT2, cexT4])] := by
    norm_num [List.enum, List.enumFrom, cexPen]
  rw [hsort1, hpen, List.mergeSort_of_sorted (by norm_num [List.pairwise_cons])]
  rfl

theorem cex_expand2 :
    expandBeams cexScore cexAll [(1, [cexT1, cexT3]), (1 / 4, [cexT2, cexT4])] =
      [(1 / 3, [cexT2, cexT4, cexT5])] := by
  norm_num [expandBeams, get_neighbors, cexAll, cexScore,
    cexT1, cexT2, cexT3, cexT4, cexT5, List.flatMap, List.filterMap]

/-- C9 fails as stated: running the search on `cexTq`/`cexAll` with
`beam_size = 2` and `max_length = 3`, the second expansion step attaches
the raw (pre-penalty) score 1/3 to the extended chain
`[cexT2, cexT4, cexT5]`, but the arithmetic mean of that chain's triple
scores is 1/2: the carried parent score was already multiplied by the
diversity penalty in the previous iteration, so later averages are not
means of the individual triple scores. -/
theorem beam_raw_score_counterexample :
    ((1 : ℚ) / 3, [cexT2, cexT4, cexT5]) ∈
      expandBeams cexScore cexAll
        ((beamStep cexScore cexPen cexAll 2)^[1] (initBeams cexScore cexTq 2)) ∧
    meanScore cexScore [cexT2, cexT4, cexT5] = 1 / 2 ∧
    ((1 : ℚ) / 3) ≠ 1 / 2 := by
  refine ⟨?_, ?_, by norm_num⟩
  · rw [Function.iterate_one, cex_init, cex_step1, cex_expand2]
    simp
  · norm_num [meanScore, cexScore, cexT1, cexT2, cexT3, cexT4, cexT5]

/-- C9 (amended): the raw score of an extended chain equals
`(carried * len(seq) + new) / (len(seq) + 1)`; it is the arithmetic mean of
the chain's triple scores exactly when the carried parent score is the mean
of the parent's triple scores — which holds for the initial single-triple
beams, hence at the first expansion step; after a diversity penalty is
applied, the carried scores are penalized values and the equality is lost. -/
theorem beam_raw_score_mean {α : Type} [DecidableEq α] (score : α × α × α → ℚ)
    (allT : List (α × α × α)) (beams : List (ℚ × List (α × α × α)))
    (Tq : List (α × α × α)) (beamSize : Nat)
    (hbeams : ∀ sq ∈ beams, sq.2 ≠ [] ∧ sq.1 = meanScore score sq.2) :
    (∀ c ∈ expandBeams score allT beams, c.2 ≠ [] ∧ c.1 = meanScore score c.2) ∧
    (∀ c ∈ initBeams score Tq beamSize, c.2 ≠ [] ∧ c.1 = meanScore score c.2) := by
  constructor
  · intro c hc
    obtain ⟨sq, hsq, hc2⟩ := List.mem_flatMap.mp hc
    obtain ⟨hne, hmean⟩ := hbeams sq hsq
    cases hlast : sq.2.getLast? with
    | none => rw [hlast] at hc2; cases hc2
    | some last =>
      rw [hlast] at hc2
      obtain ⟨nb, hnb, hval⟩ := List.mem_filterMap.mp hc2
      by_cases hmem : nb ∈ sq.2
      · rw [if_pos hmem] at hval; cases hval
      · rw [if_neg hmem] at hval
        cases hval
        have hlen : ((sq.2.length : ℚ)) ≠ 0 := by
          have : sq.2.length ≠ 0 := fun h => hne (List.length_eq_zero.mp h)
          exact_mod_cast this
        refine ⟨by simp, ?_⟩
        simp only [meanScore, List.map_append, List.map_cons, List.map_nil,
          List.sum_append, List.sum_cons, List.sum_nil, List.length_append,
          List.length_cons, List.length_nil]
        rw [hmean]
        unfold meanScore
        push_cast
        field_simp
  · intro c hc
    have hc2 : c ∈ (Tq.map (fun t => (score t, [t]))).mergeSort
        (fun p q => decide (q.1 ≤ p.1)) := List.mem_of_mem_take hc
    have hc3 : c ∈ Tq.map (fun t => (score t, [t])) := List.mem_mergeSort.mp hc2
    obtain ⟨t, _, hval⟩ := List.mem_map.mp hc3
    cases hval
    refine ⟨by simp, ?_⟩
    simp [meanScore]

theorem beam_raw_score_mean_witness :
    (∀ c ∈ expandBeams cexScore cexAll [(1, [cexT1])],
      c.2 ≠ [] ∧ c.1 = meanScore cexScore c.2) ∧
    (∀ c ∈ initBeams cexScore cexTq 2,
      c.2 ≠ [] ∧ c.1 = meanScore cexScore c.2) :=
  beam_raw_score_mean cexScore cexAll [(1, [cexT1])] cexTq 2
    (by
      intro sq hsq
      rcases List.mem_singleton.mp hsq with rfl
      exact ⟨by simp, by norm_num [meanScore, cexScore]⟩)

end MetaRag
